import Mathlib

/-!
Shallow embedding of the versioned entity store implemented in
`src/backend/src/services/dynamodb.ts` (class `DynamoDBService`).

The store is a single wide table: a finite association list from
(partition key, sort key) pairs to items.  Items are the entities the
service reads and writes; the service strips the `PK`/`SK` attributes
when returning items, so we keep the keys at the map level and store
the bare entity as the value.  Attribute values are modelled as strings;
the operations never inspect values, only copy and overwrite them.
Timestamps (`new Date().toISOString()`) are passed in explicitly as a
`now : String` parameter.  Write traffic to DynamoDB is reified as a
list of `WriteOp`s so that the order of writes within one operation is
part of the model; the store-level functions apply those ops in order.
-/

namespace VersionedStore

/-- Entity kinds, from the `EntityType` enum in dynamodb.ts. -/
inductive EntityType where
  | USER
  | PRENUP
  | FINANCIAL_DISCLOSURE
  | DOCUMENT
  | SIGNATURE
  | PARTNER_INVITATION
deriving DecidableEq, Repr

/-- String value of an `EntityType` member (the enum values in the source). -/
def EntityType.toStr : EntityType → String
  | .USER => "USER"
  | .PRENUP => "PRENUP"
  | .FINANCIAL_DISCLOSURE => "FINANCIAL_DISCLOSURE"
  | .DOCUMENT => "DOCUMENT"
  | .SIGNATURE => "SIGNATURE"
  | .PARTNER_INVITATION => "PARTNER_INVITATION"

/-- Domain-specific attributes of an entity: an association list from
attribute names to (string-modelled) values, mirroring the extra fields a
concrete `T extends BaseEntity` carries beyond the `BaseEntity` ones. -/
abbrev AttrMap := List (String × String)

/-- Look up an attribute by name (first occurrence wins, as in a JS object). -/
def getAttr : AttrMap → String → Option String
  | [], _ => none
  | kv :: m, k => if kv.1 = k then some kv.2 else getAttr m k

/-- Whether the attribute map binds the name `k`. -/
def hasKey (m : AttrMap) (k : String) : Bool :=
  m.any (fun kv => kv.1 = k)

/-- Replace one binding's value by the value `upd` gives its key, if any. -/
def overrideWith (upd : AttrMap) (kv : String × String) : String × String :=
  match getAttr upd kv.1 with
  | some v => (kv.1, v)
  | none => kv

/-- JS object spread `{...base, ...upd}`: keys of `base` keep their position,
with values overridden by `upd` where it binds the same key; keys of `upd`
not present in `base` are appended in order. -/
def spread (base upd : AttrMap) : AttrMap :=
  base.map (overrideWith upd) ++ upd.filter (fun kv => ¬ hasKey base kv.1)

/-- A stored entity: the `BaseEntity` fields of dynamodb.ts plus the
domain-specific attributes. -/
structure Entity where
  id : String
  entityType : EntityType
  createdAt : String
  updatedAt : String
  version : String
  attrs : AttrMap
deriving DecidableEq, Repr

/-- Input to `create`: an entity without `createdAt`, `updatedAt`, `version`
(the `Omit<T, 'createdAt' | 'updatedAt' | 'version'>` parameter type). -/
structure EntityInput where
  id : String
  entityType : EntityType
  attrs : AttrMap
deriving DecidableEq, Repr

/-- The sort key of the current version (`LATEST_VERSION = 'V0'`). -/
def LATEST_VERSION : String := "V0"

/-- Partition key computation: `${entityType}#${id}`. -/
def createPartitionKey (entityType : EntityType) (id : String) : String :=
  entityType.toStr ++ "#" ++ id

/-- Version key from a version number: `V${versionNumber}`. -/
def createVersionKey (versionNumber : Nat) : String :=
  "V" ++ toString versionNumber

/-- Numeric suffix of a version key: `parseInt(versionKey.substring(1))`.
The call sites only ever reach this with a key of the form `V<digits>`;
on other strings JS `parseInt` yields `NaN`, which we collapse to 0. -/
def parseVersionNumber (versionKey : String) : Nat :=
  ((versionKey.drop 1).toNat?).getD 0

/-- Next archive slot (`DynamoDBService.getNextVersionKey`): the current
version `V0` maps to `V1`, otherwise the numeric suffix is incremented. -/
def getNextVersionKey (currentVersion : String) : String :=
  if currentVersion = LATEST_VERSION then "V1"
  else createVersionKey (parseVersionNumber currentVersion + 1)

/-- Composite key of one stored record: (PK, SK). -/
abbrev Key := String × String

/-- The table contents: a finite association list from keys to entities. -/
abbrev Store := List (Key × Entity)

/-- One write issued to DynamoDB: a `PutCommand` (full overwrite of the item
at the key) or a `DeleteCommand`. -/
inductive WriteOp where
  | put (key : Key) (item : Entity)
  | del (key : Key)
deriving DecidableEq, Repr

/-- Effect of one write on the table. `put` overwrites any item at the key,
`del` removes the item at the key if present. -/
def applyOp (s : Store) : WriteOp → Store
  | .put k e => (k, e) :: s.filter (fun kv => kv.1 ≠ k)
  | .del k => s.filter (fun kv => kv.1 ≠ k)

/-- Effect of a sequence of writes, applied in order. -/
def applyOps (s : Store) (ops : List WriteOp) : Store :=
  ops.foldl applyOp s

/-- Lookup of the item at a key, with `PK`/`SK` stripped (the value); the
first binding of the key wins, as in an association list. -/
def getItem : Store → Key → Option Entity
  | [], _ => none
  | kv :: s, k => if kv.1 = k then some kv.2 else getItem s k

/-- The `getById` operation: reads the record at
(createPartitionKey entityType id, version). The source defaults
`version` to `LATEST_VERSION`; call sites here pass it explicitly. -/
def getById (s : Store) (entityType : EntityType) (id : String)
    (version : String) : Option Entity :=
  getItem s (createPartitionKey entityType id, version)

/-- The entity stored by `create`: input plus `createdAt = updatedAt = now`
and `version = LATEST_VERSION`. -/
def createEntity (entity : EntityInput) (now : String) : Entity :=
  { id := entity.id
    entityType := entity.entityType
    createdAt := now
    updatedAt := now
    version := LATEST_VERSION
    attrs := entity.attrs }

/-- The `create` operation: returns the stored entity and the single write
it issues (a put at (`pk`, `LATEST_VERSION`)). -/
def create (entity : EntityInput) (now : String) : Entity × List WriteOp :=
  let entityWithMeta := createEntity entity now
  let pk := createPartitionKey entity.entityType entity.id
  (entityWithMeta, [.put (pk, LATEST_VERSION) entityWithMeta])

/-- Store after `create`. -/
def createStore (s : Store) (entity : EntityInput) (now : String) : Store :=
  applyOps s (create entity now).2

/-- The item written by `archiveVersion`: the entity with its `version`
attribute replaced by the next version key (`{...entity, version: nextVersionKey}`). -/
def archiveItem (entity : Entity) : Entity :=
  { entity with version := getNextVersionKey entity.version }

/-- The write issued by `archiveVersion pk entity`: a put of the retagged
snapshot at (`pk`, `getNextVersionKey entity.version`). -/
def archiveVersionOp (pk : String) (entity : Entity) : WriteOp :=
  .put (pk, getNextVersionKey entity.version) (archiveItem entity)

/-- The merged record written by a versioned `update`:
`{...current, ...updates, updatedAt: now, version: LATEST_VERSION}`. -/
def mergedEntity (current : Entity) (updates : AttrMap) (now : String) : Entity :=
  { current with
      attrs := spread current.attrs updates
      updatedAt := now
      version := LATEST_VERSION }

/-- The record produced by the in-place branch of `update` (an
`UpdateCommand` that SETs each updated attribute and `updatedAt`, leaving
`version` untouched, returning `ALL_NEW`). -/
def mergedInPlace (current : Entity) (updates : AttrMap) (now : String) : Entity :=
  { current with
      attrs := spread current.attrs updates
      updatedAt := now }

/-- The `update` operation.  Reads the current `V0` record; throws
`Entity ${pk} not found` if absent.  With `createNewVersion = true` it
issues the archive put and then the put of the merged record at `V0`;
with `createNewVersion = false` it issues one in-place write at `V0`.
Returns the new current record together with the writes issued, in order. -/
def update (s : Store) (entityType : EntityType) (id : String)
    (updates : AttrMap) (createNewVersion : Bool) (now : String) :
    Except String (Entity × List WriteOp) :=
  let pk := createPartitionKey entityType id
  match getById s entityType id LATEST_VERSION with
  | none => .error ("Entity " ++ pk ++ " not found")
  | some current =>
    if createNewVersion then
      let updatedEntity := mergedEntity current updates now
      .ok (updatedEntity,
        [archiveVersionOp pk current, .put (pk, LATEST_VERSION) updatedEntity])
    else
      let updatedEntity := mergedInPlace current updates now
      .ok (updatedEntity, [.put (pk, LATEST_VERSION) updatedEntity])

/-- Store after `update`: unchanged when the operation throws (it issues no
writes before the not-found check), otherwise the issued writes applied. -/
def updateStore (s : Store) (entityType : EntityType) (id : String)
    (updates : AttrMap) (createNewVersion : Bool) (now : String) : Store :=
  match update s entityType id updates createNewVersion now with
  | .error _ => s
  | .ok (_, ops) => applyOps s ops

/-- All records under a partition key (`getAllVersions`: a Query on `PK = :pk`). -/
def getAllVersions (s : Store) (pk : String) : List (Key × Entity) :=
  s.filter (fun kv => kv.1.1 = pk)

/-- The writes issued by `delete`: one `DeleteCommand` per record found
under the partition key.  When no record exists the list is empty and the
operation resolves without error (`Promise.all([])`). -/
def deleteOps (s : Store) (entityType : EntityType) (id : String) : List WriteOp :=
  let pk := createPartitionKey entityType id
  (getAllVersions s pk).map (fun kv => .del kv.1)

/-- Store after `delete`. -/
def deleteStore (s : Store) (entityType : EntityType) (id : String) : Store :=
  applyOps s (deleteOps s entityType id)

/-- A sequence of successive versioned updates (`archivePrevious = true`),
each given by its partial payload and its clock reading. -/
def updateSeq (s : Store) (entityType : EntityType) (id : String)
    (steps : List (AttrMap × String)) : Store :=
  steps.foldl (fun acc st => updateStore acc entityType id st.1 true st.2) s

/-- Stores reachable from the empty table by the service's mutating
operations (`create`, `update` with either flag, `delete`). -/
inductive Reachable : Store → Prop where
  | init : Reachable []
  | step_create {s : Store} (input : EntityInput) (now : String) :
      Reachable s → Reachable (createStore s input now)
  | step_update {s : Store} (entityType : EntityType) (id : String)
      (updates : AttrMap) (flag : Bool) (now : String) :
      Reachable s → Reachable (updateStore s entityType id updates flag now)
  | step_delete {s : Store} (entityType : EntityType) (id : String) :
      Reachable s → Reachable (deleteStore s entityType id)

/-- Records of the pair (entityType, id) carrying the current-version tag. -/
def currentRecords (s : Store) (entityType : EntityType) (id : String) :
    List (Key × Entity) :=
  s.filter (fun kv =>
    kv.1.1 = createPartitionKey entityType id ∧ kv.2.version = LATEST_VERSION)

/-- Records of the pair (entityType, id) stored at an archive slot (a sort
key other than `V0`). -/
def archivedRecords (s : Store) (entityType : EntityType) (id : String) :
    List (Key × Entity) :=
  s.filter (fun kv =>
    kv.1.1 = createPartitionKey entityType id ∧ kv.1.2 ≠ LATEST_VERSION)

/-- Well-formedness invariant of the table: keys are distinct; every
record's `version` attribute agrees with its sort key and is `V0` or `V1`;
and every inhabited partition has a record at sort key `V0`. -/
def WFStore (s : Store) : Prop :=
  (s.map (·.1)).Nodup ∧
  (∀ kv ∈ s, kv.2.version = kv.1.2 ∧ (kv.1.2 = "V0" ∨ kv.1.2 = "V1")) ∧
  (∀ pk : String, (∃ kv ∈ s, kv.1.1 = pk) → ∃ e, ((pk, "V0"), e) ∈ s)

/-- Concrete example input used to exercise the operations on explicit runs. -/
def exInput : EntityInput :=
  { id := "id1", entityType := .USER, attrs := [("email", "a")] }

/-- Store after creating `exInput` at time `t0`. -/
def exS1 : Store := createStore [] exInput "t0"

/-- The pre-update snapshot: the current record of `exS1`. -/
def exCur1 : Entity :=
  { id := "id1", entityType := .USER, createdAt := "t0", updatedAt := "t0",
    version := "V0", attrs := [("email", "a")] }

/-- Store after one versioned update at time `t1`. -/
def exS2 : Store := updateStore exS1 .USER "id1" [("email", "b")] true "t1"

/-- Store after a second versioned update at time `t2`. -/
def exS3 : Store := updateStore exS2 .USER "id1" [("email", "c")] true "t2"

/-- The current record of `exS2`: the merge written by the first update. -/
def exMerged1 : Entity :=
  { id := "id1", entityType := .USER, createdAt := "t0", updatedAt := "t1",
    version := "V0", attrs := [("email", "b")] }

/-- The archived record of `exS2`: the creation state retagged to `V1`. -/
def exArch1 : Entity :=
  { id := "id1", entityType := .USER, createdAt := "t0", updatedAt := "t0",
    version := "V1", attrs := [("email", "a")] }

/-- Store after one in-place (non-versioned) update at time `t1`. -/
def exF1 : Store := updateStore exS1 .USER "id1" [("email", "b")] false "t1"

/-- Store after repeating the same in-place update at time `t2`. -/
def exF2 : Store := updateStore exF1 .USER "id1" [("email", "b")] false "t2"

/-! Basic lemmas about the write primitives. -/

theorem getItem_filter_ne (s : Store) (k k' : Key) (h : k' ≠ k) :
    getItem (s.filter fun kv => kv.1 ≠ k) k' = getItem s k' := by
  induction s with
  | nil => rfl
  | cons kv s ih =>
    rw [List.filter_cons]
    by_cases hk : kv.1 = k
    · have hne' : ¬ k = k' := fun he => h he.symm
      simpa [hk, getItem, hne'] using ih
    · by_cases hk2 : kv.1 = k'
      · simp [hk, getItem, hk2, h]
      · simpa [hk, getItem, hk2] using ih

theorem getItem_put_self (s : Store) (k : Key) (e : Entity) :
    getItem (applyOp s (.put k e)) k = some e := by
  simp [applyOp, getItem]

theorem getItem_put_ne (s : Store) (k k' : Key) (e : Entity) (h : k' ≠ k) :
    getItem (applyOp s (.put k e)) k' = getItem s k' := by
  have hne : ¬ k = k' := fun he => h he.symm
  simp only [applyOp, getItem, hne, if_false]
  exact getItem_filter_ne s k k' h

theorem getItem_del_self (s : Store) (k : Key) :
    getItem (applyOp s (.del k)) k = none := by
  induction s with
  | nil => rfl
  | cons kv s ih =>
    simp only [applyOp] at ih ⊢
    rw [List.filter_cons]
    by_cases hk : kv.1 = k
    · simpa [hk] using ih
    · simpa [getItem, hk] using ih

theorem getItem_del_ne (s : Store) (k k' : Key) (h : k' ≠ k) :
    getItem (applyOp s (.del k)) k' = getItem s k' :=
  getItem_filter_ne s k k' h

/-! Characterizations of the three operations as store transformations. -/

theorem createStore_eq (s : Store) (input : EntityInput) (now : String) :
    createStore s input now =
      applyOp s (.put (createPartitionKey input.entityType input.id, LATEST_VERSION)
        (createEntity input now)) := rfl

theorem update_not_found (s : Store) (ty : EntityType) (id : String)
    (p : AttrMap) (b : Bool) (now : String)
    (h : getById s ty id LATEST_VERSION = none) :
    update s ty id p b now =
      .error ("Entity " ++ createPartitionKey ty id ++ " not found") := by
  simp [update, h]

theorem updateStore_not_found (s : Store) (ty : EntityType) (id : String)
    (p : AttrMap) (b : Bool) (now : String)
    (h : getById s ty id LATEST_VERSION = none) :
    updateStore s ty id p b now = s := by
  simp [updateStore, update_not_found s ty id p b now h]

theorem update_found_versioned (s : Store) (ty : EntityType) (id : String)
    (p : AttrMap) (now : String) (cur : Entity)
    (h : getById s ty id LATEST_VERSION = some cur) :
    update s ty id p true now =
      .ok (mergedEntity cur p now,
        [archiveVersionOp (createPartitionKey ty id) cur,
         .put (createPartitionKey ty id, LATEST_VERSION) (mergedEntity cur p now)]) := by
  simp [update, h]

theorem update_found_inplace (s : Store) (ty : EntityType) (id : String)
    (p : AttrMap) (now : String) (cur : Entity)
    (h : getById s ty id LATEST_VERSION = some cur) :
    update s ty id p false now =
      .ok (mergedInPlace cur p now,
        [.put (createPartitionKey ty id, LATEST_VERSION) (mergedInPlace cur p now)]) := by
  simp [update, h]

theorem updateStore_found_versioned (s : Store) (ty : EntityType) (id : String)
    (p : AttrMap) (now : String) (cur : Entity)
    (h : getById s ty id LATEST_VERSION = some cur) :
    updateStore s ty id p true now =
      applyOp (applyOp s (archiveVersionOp (createPartitionKey ty id) cur))
        (.put (createPartitionKey ty id, LATEST_VERSION) (mergedEntity cur p now)) := by
  simp [updateStore, update_found_versioned s ty id p now cur h, applyOps]

theorem updateStore_found_inplace (s : Store) (ty : EntityType) (id : String)
    (p : AttrMap) (now : String) (cur : Entity)
    (h : getById s ty id LATEST_VERSION = some cur) :
    updateStore s ty id p false now =
      applyOp s (.put (createPartitionKey ty id, LATEST_VERSION) (mergedInPlace cur p now)) := by
  simp [updateStore, update_found_inplace s ty id p now cur h, applyOps]

theorem getItem_eq_none_of_all_ne (s : Store) (k : Key)
    (h : ∀ kv ∈ s, kv.1 ≠ k) : getItem s k = none := by
  induction s with
  | nil => rfl
  | cons kv s ih =>
    simp only [getItem]
    rw [if_neg (h kv (List.mem_cons_self kv s))]
    exact ih fun kv' hm => h kv' (List.mem_cons_of_mem kv hm)

theorem applyOps_del_eq_filter (ks : List Key) (s : Store) :
    applyOps s (ks.map .del) = s.filter (fun kv => ¬ kv.1 ∈ ks) := by
  induction ks generalizing s with
  | nil => simp [applyOps]
  | cons k ks ih =>
    have hstep : applyOps s ((k :: ks).map .del) =
        applyOps (applyOp s (.del k)) (ks.map .del) := rfl
    rw [hstep, ih]
    simp only [applyOp]
    rw [List.filter_filter]
    apply List.filter_congr
    intro kv _
    by_cases h1 : kv.1 = k <;> by_cases h2 : kv.1 ∈ ks <;>
      simp [h1, h2]

theorem deleteStore_eq_filter (s : Store) (ty : EntityType) (id : String) :
    deleteStore s ty id = s.filter (fun kv => ¬ kv.1.1 = createPartitionKey ty id) := by
  unfold deleteStore deleteOps
  rw [show ((getAllVersions s (createPartitionKey ty id)).map fun kv => WriteOp.del kv.1) =
      ((getAllVersions s (createPartitionKey ty id)).map (·.1)).map .del from
    (List.map_map _ _ _).symm]
  rw [applyOps_del_eq_filter]
  apply List.filter_congr
  intro kv hmem
  by_cases hpk : kv.1.1 = createPartitionKey ty id
  · have hin : kv.1 ∈ (getAllVersions s (createPartitionKey ty id)).map (·.1) := by
      refine List.mem_map.2 ⟨kv, ?_, rfl⟩
      exact List.mem_filter.2 ⟨hmem, by simp [hpk]⟩
    simp [hin, hpk]
  · have hout : ¬ kv.1 ∈ (getAllVersions s (createPartitionKey ty id)).map (·.1) := by
      intro hmem2
      obtain ⟨kv', hkv', hEq⟩ := List.mem_map.1 hmem2
      have hp := (List.mem_filter.1 hkv').2
      rw [decide_eq_true_eq] at hp
      exact hpk (by rw [← hEq]; exact hp)
    simp [hout, hpk]

theorem getById_deleteStore (s : Store) (ty : EntityType) (id : String) (v : String) :
    getById (deleteStore s ty id) ty id v = none := by
  have hg : getById (deleteStore s ty id) ty id v =
      getItem (deleteStore s ty id) (createPartitionKey ty id, v) := rfl
  rw [hg, deleteStore_eq_filter]
  apply getItem_eq_none_of_all_ne
  intro kv hm hEq
  have hp := (List.mem_filter.1 hm).2
  rw [decide_eq_true_eq] at hp
  exact hp (by rw [hEq])

/-! Reads after the individual operations. -/

theorem getById_eq_getItem (s : Store) (ty : EntityType) (id v : String) :
    getById s ty id v = getItem s (createPartitionKey ty id, v) := rfl

theorem getById_createStore_self (s : Store) (input : EntityInput) (now : String) :
    getById (createStore s input now) input.entityType input.id LATEST_VERSION =
      some (createEntity input now) := by
  rw [getById_eq_getItem, createStore_eq]
  exact getItem_put_self _ _ _

theorem getNextVersionKey_latest : getNextVersionKey LATEST_VERSION = "V1" :=
  if_pos rfl

theorem archiveVersionOp_eq (pk : String) (e : Entity) :
    archiveVersionOp pk e = .put (pk, getNextVersionKey e.version) (archiveItem e) := rfl

theorem getById_updateStore_versioned_current (s : Store) (ty : EntityType)
    (id : String) (p : AttrMap) (now : String) (cur : Entity)
    (h : getById s ty id LATEST_VERSION = some cur) :
    getById (updateStore s ty id p true now) ty id LATEST_VERSION =
      some (mergedEntity cur p now) := by
  rw [getById_eq_getItem, updateStore_found_versioned s ty id p now cur h]
  exact getItem_put_self _ _ _

theorem getById_updateStore_versioned_archive (s : Store) (ty : EntityType)
    (id : String) (p : AttrMap) (now : String) (cur : Entity)
    (h : getById s ty id LATEST_VERSION = some cur)
    (hne : getNextVersionKey cur.version ≠ LATEST_VERSION) :
    getById (updateStore s ty id p true now) ty id (getNextVersionKey cur.version) =
      some (archiveItem cur) := by
  rw [getById_eq_getItem, updateStore_found_versioned s ty id p now cur h]
  rw [getItem_put_ne _ _ _ _ (fun hEq => hne (congrArg Prod.snd hEq))]
  rw [archiveVersionOp_eq]
  exact getItem_put_self _ _ _

theorem getById_updateStore_inplace_current (s : Store) (ty : EntityType)
    (id : String) (p : AttrMap) (now : String) (cur : Entity)
    (h : getById s ty id LATEST_VERSION = some cur) :
    getById (updateStore s ty id p false now) ty id LATEST_VERSION =
      some (mergedInPlace cur p now) := by
  rw [getById_eq_getItem, updateStore_found_inplace s ty id p now cur h]
  exact getItem_put_self _ _ _

/-! Membership and key-distinctness facts used by the invariant proofs. -/

theorem getItem_mem (s : Store) (k : Key) (e : Entity)
    (h : getItem s k = some e) : (k, e) ∈ s := by
  induction s with
  | nil => exact absurd h (by simp [getItem])
  | cons kv s ih =>
    by_cases hk : kv.1 = k
    · have h2 : some kv.2 = some e := by rw [← h]; simp [getItem, hk]
      have heq : kv = (k, e) := by
        obtain ⟨k1, e1⟩ := kv
        simp only at hk h2
        simp [hk, Option.some_inj.1 h2]
      rw [← heq]
      exact List.mem_cons_self kv s
    · exact List.mem_cons_of_mem kv (ih (by rw [← h]; simp [getItem, hk]))

theorem mem_put (s : Store) (k : Key) (e : Entity) (kv : Key × Entity) :
    kv ∈ applyOp s (.put k e) ↔ kv = (k, e) ∨ (kv ∈ s ∧ ¬ kv.1 = k) := by
  simp [applyOp, List.mem_filter, and_comm]

theorem nodup_keys_put (s : Store) (k : Key) (e : Entity)
    (h : (s.map (·.1)).Nodup) :
    ((applyOp s (.put k e)).map (·.1)).Nodup := by
  simp only [applyOp, List.map_cons, List.nodup_cons]
  refine ⟨?_, ?_⟩
  · intro hmem
    obtain ⟨kv, hkv, hEq⟩ := List.mem_map.1 hmem
    have hp := (List.mem_filter.1 hkv).2
    rw [decide_eq_true_eq] at hp
    exact hp hEq
  · exact List.Sublist.nodup (List.Sublist.map _ (List.filter_sublist s)) h

theorem nodup_keys_filter (s : Store) (p : Key × Entity → Bool)
    (h : (s.map (·.1)).Nodup) :
    ((s.filter p).map (·.1)).Nodup :=
  List.Sublist.nodup (List.Sublist.map _ (List.filter_sublist s)) h

/-! Preservation of the well-formedness invariant by each operation. -/

theorem wf_createStore (s : Store) (input : EntityInput) (now : String)
    (h : WFStore s) : WFStore (createStore s input now) := by
  obtain ⟨hnd, hver, hv0⟩ := h
  rw [createStore_eq]
  refine ⟨nodup_keys_put _ _ _ hnd, ?_, ?_⟩
  · intro kv hm
    rcases (mem_put _ _ _ kv).1 hm with heq | ⟨hm', _⟩
    · subst heq
      exact ⟨rfl, Or.inl rfl⟩
    · exact hver kv hm'
  · rintro pk ⟨kv, hm, hkpk⟩
    rcases (mem_put _ _ _ kv).1 hm with heq | ⟨hm', _⟩
    · refine ⟨createEntity input now, (mem_put _ _ _ _).2 (Or.inl ?_)⟩
      subst heq
      simp only at hkpk
      rw [← hkpk]
      rfl
    · obtain ⟨e', he'⟩ := hv0 pk ⟨kv, hm', hkpk⟩
      by_cases hsame :
          ((pk, "V0") : Key) = (createPartitionKey input.entityType input.id, LATEST_VERSION)
      · exact ⟨createEntity input now, (mem_put _ _ _ _).2 (Or.inl (by rw [hsame]))⟩
      · exact ⟨e', (mem_put _ _ _ _).2 (Or.inr ⟨he', hsame⟩)⟩

theorem current_version_eq (s : Store) (ty : EntityType) (id : String) (cur : Entity)
    (h : WFStore s) (hcur : getById s ty id LATEST_VERSION = some cur) :
    cur.version = "V0" :=
  (h.2.1 _ (getItem_mem s (createPartitionKey ty id, LATEST_VERSION) cur hcur)).1

theorem wf_updateStore (s : Store) (ty : EntityType) (id : String)
    (p : AttrMap) (b : Bool) (now : String)
    (h : WFStore s) : WFStore (updateStore s ty id p b now) := by
  cases hcur : getById s ty id LATEST_VERSION with
  | none => rw [updateStore_not_found s ty id p b now hcur]; exact h
  | some cur =>
    have hcv : cur.version = "V0" := current_version_eq s ty id cur h hcur
    have hnk : getNextVersionKey cur.version = "V1" := by
      rw [hcv]; exact getNextVersionKey_latest
    obtain ⟨hnd, hver, hv0⟩ := h
    cases b with
    | false =>
      rw [updateStore_found_inplace s ty id p now cur hcur]
      refine ⟨nodup_keys_put _ _ _ hnd, ?_, ?_⟩
      · intro kv hm
        rcases (mem_put _ _ _ kv).1 hm with heq | ⟨hm', _⟩
        · subst heq
          exact ⟨by simp [mergedInPlace, hcv, LATEST_VERSION], Or.inl rfl⟩
        · exact hver kv hm'
      · rintro pk ⟨kv, hm, hkpk⟩
        rcases (mem_put _ _ _ kv).1 hm with heq | ⟨hm', _⟩
        · refine ⟨mergedInPlace cur p now, (mem_put _ _ _ _).2 (Or.inl ?_)⟩
          subst heq
          simp only at hkpk
          rw [← hkpk]
          rfl
        · obtain ⟨e', he'⟩ := hv0 pk ⟨kv, hm', hkpk⟩
          by_cases hsame :
              ((pk, "V0") : Key) = (createPartitionKey ty id, LATEST_VERSION)
          · exact ⟨mergedInPlace cur p now, (mem_put _ _ _ _).2 (Or.inl (by rw [hsame]))⟩
          · exact ⟨e', (mem_put _ _ _ _).2 (Or.inr ⟨he', hsame⟩)⟩
    | true =>
      rw [updateStore_found_versioned s ty id p now cur hcur, archiveVersionOp_eq, hnk]
      refine ⟨nodup_keys_put _ _ _ (nodup_keys_put _ _ _ hnd), ?_, ?_⟩
      · intro kv hm
        rcases (mem_put _ _ _ kv).1 hm with heq | ⟨hm', _⟩
        · subst heq
          exact ⟨rfl, Or.inl rfl⟩
        · rcases (mem_put _ _ _ kv).1 hm' with heq | ⟨hm2, _⟩
          · subst heq
            exact ⟨by simp [archiveItem, hnk], Or.inr rfl⟩
          · exact hver kv hm2
      · rintro pk ⟨kv, hm, hkpk⟩
        by_cases hpk : pk = createPartitionKey ty id
        · refine ⟨mergedEntity cur p now, (mem_put _ _ _ _).2 (Or.inl ?_)⟩
          rw [hpk]
          rfl
        · rcases (mem_put _ _ _ kv).1 hm with heq | ⟨hm', _⟩
          · exact absurd (by subst heq; simpa using hkpk.symm) hpk
          · rcases (mem_put _ _ _ kv).1 hm' with heq | ⟨hm2, _⟩
            · exact absurd (by subst heq; simpa using hkpk.symm) hpk
            · obtain ⟨e', he'⟩ := hv0 pk ⟨kv, hm2, hkpk⟩
              refine ⟨e', (mem_put _ _ _ _).2 (Or.inr ⟨(mem_put _ _ _ _).2 (Or.inr ⟨he', ?_⟩), ?_⟩)⟩
              · exact fun hEq => hpk (congrArg Prod.fst hEq)
              · exact fun hEq => hpk (congrArg Prod.fst hEq)

theorem wf_deleteStore (s : Store) (ty : EntityType) (id : String)
    (h : WFStore s) : WFStore (deleteStore s ty id) := by
  obtain ⟨hnd, hver, hv0⟩ := h
  rw [deleteStore_eq_filter]
  refine ⟨nodup_keys_filter _ _ hnd, ?_, ?_⟩
  · intro kv hm
    exact hver kv (List.mem_filter.1 hm).1
  · rintro pk ⟨kv, hm, hkpk⟩
    have hm1 := (List.mem_filter.1 hm).1
    have hp := (List.mem_filter.1 hm).2
    rw [decide_eq_true_eq] at hp
    obtain ⟨e', he'⟩ := hv0 pk ⟨kv, hm1, hkpk⟩
    refine ⟨e', List.mem_filter.2 ⟨he', ?_⟩⟩
    rw [decide_eq_true_eq]
    intro hEq
    exact hp (by rw [hkpk]; exact hEq)

theorem reachable_wf (s : Store) (h : Reachable s) : WFStore s := by
  induction h with
  | init =>
    refine ⟨List.nodup_nil, by simp, ?_⟩
    rintro pk ⟨kv, hm, _⟩
    cases hm
  | step_create input now _ ih => exact wf_createStore _ input now ih
  | step_update ty id p b now _ ih => exact wf_updateStore _ ty id p b now ih
  | step_delete ty id _ ih => exact wf_deleteStore _ ty id ih

/-! Counting records with a given key under distinctness of keys. -/

theorem length_filter_key_le_one (s : Store) (k : Key)
    (hnd : (s.map (·.1)).Nodup) :
    (s.filter (fun kv => kv.1 = k)).length ≤ 1 := by
  induction s with
  | nil => simp
  | cons kv s ih =>
    rw [List.map_cons, List.nodup_cons] at hnd
    rw [List.filter_cons]
    by_cases hk : kv.1 = k
    · have hnil : s.filter (fun kv => kv.1 = k) = [] := by
        apply List.filter_eq_nil_iff.2
        intro a ha hpa
        rw [decide_eq_true_eq] at hpa
        have hmm : a.1 ∈ s.map (·.1) := List.mem_map_of_mem _ ha
        rw [hpa, ← hk] at hmm
        exact hnd.1 hmm
      simp [hk, hnil]
    · simpa [hk] using ih hnd.2

theorem length_filter_key_eq_one (s : Store) (k : Key)
    (hnd : (s.map (·.1)).Nodup) (hm : ∃ e, (k, e) ∈ s) :
    (s.filter (fun kv => kv.1 = k)).length = 1 := by
  obtain ⟨e, he⟩ := hm
  have hle := length_filter_key_le_one s k hnd
  have hpos : 0 < (s.filter (fun kv => kv.1 = k)).length :=
    List.length_pos_of_mem (List.mem_filter.2 ⟨he, by simp⟩)
  omega

theorem currentRecords_eq_filter_key (s : Store) (ty : EntityType) (id : String)
    (h : WFStore s) :
    currentRecords s ty id =
      s.filter (fun kv => kv.1 = (createPartitionKey ty id, "V0")) := by
  apply List.filter_congr
  intro kv hm
  obtain ⟨hv, _⟩ := h.2.1 kv hm
  rw [decide_eq_decide, hv, Prod.ext_iff]
  simp [LATEST_VERSION]

theorem archivedRecords_eq_filter_key (s : Store) (ty : EntityType) (id : String)
    (h : WFStore s) :
    archivedRecords s ty id =
      s.filter (fun kv => kv.1 = (createPartitionKey ty id, "V1")) := by
  apply List.filter_congr
  intro kv hm
  obtain ⟨_, hsk⟩ := h.2.1 kv hm
  rw [decide_eq_decide, Prod.ext_iff]
  rcases hsk with h0 | h1
  · simp [h0, LATEST_VERSION]
  · simp [h1, LATEST_VERSION]

theorem archivedRecords_le_one (s : Store) (ty : EntityType) (id : String)
    (h : WFStore s) : (archivedRecords s ty id).length ≤ 1 := by
  rw [archivedRecords_eq_filter_key s ty id h]
  exact length_filter_key_le_one s _ h.1

theorem archivedRecords_eq_one (s : Store) (ty : EntityType) (id : String)
    (h : WFStore s) (hm : ∃ e, ((createPartitionKey ty id, "V1"), e) ∈ s) :
    (archivedRecords s ty id).length = 1 := by
  rw [archivedRecords_eq_filter_key s ty id h]
  exact length_filter_key_eq_one s _ h.1 hm

theorem currentRecords_eq_one (s : Store) (ty : EntityType) (id : String)
    (h : WFStore s) (hm : ∃ kv ∈ s, kv.1.1 = createPartitionKey ty id) :
    (currentRecords s ty id).length = 1 := by
  rw [currentRecords_eq_filter_key s ty id h]
  exact length_filter_key_eq_one s _ h.1 (h.2.2 _ hm)

/-! Idempotence of object spread, for payloads with distinct keys. -/

theorem hasKey_iff (m : AttrMap) (k : String) :
    hasKey m k = true ↔ ∃ kv ∈ m, kv.1 = k := by
  unfold hasKey
  rw [List.any_eq_true]
  constructor
  · rintro ⟨x, hx, hp⟩
    exact ⟨x, hx, by rwa [decide_eq_true_eq] at hp⟩
  · rintro ⟨x, hx, hp⟩
    exact ⟨x, hx, by rwa [decide_eq_true_eq]⟩

theorem overrideWith_fst (u : AttrMap) (kv : String × String) :
    (overrideWith u kv).1 = kv.1 := by
  unfold overrideWith
  cases getAttr u kv.1 <;> simp

theorem getAttr_of_mem_nodup (u : AttrMap) (kv : String × String)
    (hnd : (u.map (·.1)).Nodup) (hm : kv ∈ u) : getAttr u kv.1 = some kv.2 := by
  induction u with
  | nil => cases hm
  | cons kv0 u ih =>
    rw [List.map_cons, List.nodup_cons] at hnd
    rcases List.mem_cons.1 hm with heq | hm'
    · subst heq
      simp [getAttr]
    · have hne : ¬ kv0.1 = kv.1 := by
        intro hEq
        have hmm : kv.1 ∈ u.map (·.1) := List.mem_map_of_mem _ hm'
        rw [← hEq] at hmm
        exact hnd.1 hmm
      simpa [getAttr, hne] using ih hnd.2 hm'

theorem hasKey_spread (b u : AttrMap) (k : String) (h : hasKey u k = true) :
    hasKey (spread b u) k = true := by
  rw [hasKey_iff] at h ⊢
  obtain ⟨kv, hm, hk⟩ := h
  by_cases hb : hasKey b k = true
  · rw [hasKey_iff] at hb
    obtain ⟨kb, hmb, hkb⟩ := hb
    refine ⟨overrideWith u kb, ?_, ?_⟩
    · exact List.mem_append_left _ (List.mem_map_of_mem _ hmb)
    · rw [overrideWith_fst]
      exact hkb
  · refine ⟨kv, ?_, hk⟩
    apply List.mem_append_right
    apply List.mem_filter.2 ⟨hm, ?_⟩
    rw [hk]
    simp [hb]

theorem overrideWith_mem_spread (b u : AttrMap)
    (hnd : (u.map (·.1)).Nodup) (kv : String × String) (hm : kv ∈ spread b u) :
    overrideWith u kv = kv := by
  rcases List.mem_append.1 hm with hl | hr
  · obtain ⟨kv0, _, hEq⟩ := List.mem_map.1 hl
    subst hEq
    unfold overrideWith
    cases hA : getAttr u kv0.1 <;> simp [hA]
  · have hmu := (List.mem_filter.1 hr).1
    have hA := getAttr_of_mem_nodup u kv hnd hmu
    simp [overrideWith, hA]

theorem spread_idem (b u : AttrMap) (hnd : (u.map (·.1)).Nodup) :
    spread (spread b u) u = spread b u := by
  have h2 : u.filter (fun kv => ¬ hasKey (spread b u) kv.1) = [] := by
    apply List.filter_eq_nil_iff.2
    intro kv hm hp
    rw [decide_eq_true_eq] at hp
    exact hp (hasKey_spread b u kv.1 ((hasKey_iff u kv.1).2 ⟨kv, hm, rfl⟩))
  have h1 : (spread b u).map (overrideWith u) = spread b u := by
    rw [List.map_congr_left (overrideWith_mem_spread b u hnd)]
    exact List.map_id _
  show (spread b u).map (overrideWith u) ++
      u.filter (fun kv => ¬ hasKey (spread b u) kv.1) = spread b u
  rw [h1, h2, List.append_nil]

theorem applyOp_put_put (s : Store) (k : Key) (e1 e2 : Entity) :
    applyOp (applyOp s (.put k e1)) (.put k e2) = applyOp s (.put k e2) := by
  simp only [applyOp]
  rw [List.filter_cons]
  simp only [ne_eq, not_true_eq_false, decide_False, Bool.false_eq_true, if_false]
  rw [List.filter_filter]
  congr 1
  apply List.filter_congr
  intro kv _
  by_cases h : kv.1 = k <;> simp [h]

/-! Iterated versioned updates. -/

theorem updateSeq_cons (s : Store) (ty : EntityType) (id : String)
    (st : AttrMap × String) (steps : List (AttrMap × String)) :
    updateSeq s ty id (st :: steps) =
      updateSeq (updateStore s ty id st.1 true st.2) ty id steps := rfl

theorem updateSeq_reachable (steps : List (AttrMap × String)) (s : Store)
    (ty : EntityType) (id : String) (hs : Reachable s) :
    Reachable (updateSeq s ty id steps) := by
  induction steps generalizing s with
  | nil => exact hs
  | cons st steps ih =>
    rw [updateSeq_cons]
    exact ih _ (Reachable.step_update ty id st.1 true st.2 hs)

theorem updateSeq_current (steps : List (AttrMap × String)) (s : Store)
    (ty : EntityType) (id : String)
    (h : ∃ c, getById s ty id LATEST_VERSION = some c) :
    ∃ c, getById (updateSeq s ty id steps) ty id LATEST_VERSION = some c := by
  induction steps generalizing s with
  | nil => exact h
  | cons st steps ih =>
    obtain ⟨c, hc⟩ := h
    rw [updateSeq_cons]
    exact ih _ ⟨mergedEntity c st.1 st.2,
      getById_updateStore_versioned_current s ty id st.1 st.2 c hc⟩

/-- Shared helper: in a well-formed store holding a current record `cur`,
a versioned update archives exactly to slot `V1`, leaving precisely one
archived record — the pre-update snapshot retagged to `V1`. -/
theorem archive_after_update (s : Store) (ty : EntityType) (id : String)
    (cur : Entity) (p : AttrMap) (now : String)
    (hwf : WFStore s)
    (hcur : getById s ty id LATEST_VERSION = some cur) :
    getById (updateStore s ty id p true now) ty id "V1" =
      some { cur with version := "V1" } ∧
    (archivedRecords s ty id).length ≤ 1 ∧
    (archivedRecords (updateStore s ty id p true now) ty id).length = 1 ∧
    getNextVersionKey cur.version = "V1" := by
  have hcv := current_version_eq s ty id cur hwf hcur
  have hnk : getNextVersionKey cur.version = "V1" := by
    rw [hcv]; exact getNextVersionKey_latest
  have hwf' := wf_updateStore s ty id p true now hwf
  have harch : getById (updateStore s ty id p true now) ty id "V1" =
      some (archiveItem cur) := by
    have h := getById_updateStore_versioned_archive s ty id p now cur hcur
      (by rw [hnk]; decide)
    rwa [hnk] at h
  have harchitem : archiveItem cur = { cur with version := "V1" } := by
    simp only [archiveItem, hnk]
  refine ⟨by rw [harch, harchitem], archivedRecords_le_one s ty id hwf, ?_, hnk⟩
  apply archivedRecords_eq_one _ ty id hwf'
  exact ⟨archiveItem cur, getItem_mem _ _ _ harch⟩

/-! Claim theorems. -/

/-- C4: for every entity input, after `create` the store returns, at the
current version slot, a record equal to the input plus equal creation and
modification timestamps stamped at create time and version tag `V0`, and
`create`'s return value equals that stored record. -/
theorem claim_C4 (s : Store) (input : EntityInput) (now : String) :
    getById (createStore s input now) input.entityType input.id LATEST_VERSION =
      some (create input now).1 ∧
    (create input now).1.id = input.id ∧
    (create input now).1.entityType = input.entityType ∧
    (create input now).1.attrs = input.attrs ∧
    (create input now).1.createdAt = now ∧
    (create input now).1.updatedAt = now ∧
    (create input now).1.version = LATEST_VERSION :=
  ⟨getById_createStore_self s input now, rfl, rfl, rfl, rfl, rfl, rfl⟩

/-- C5: when no current `V0` record exists, `update` (for any payload and
either flag value) fails with the not-found error and performs no writes,
leaving the store unchanged. -/
theorem claim_C5 (s : Store) (ty : EntityType) (id : String) (p : AttrMap)
    (b : Bool) (now : String)
    (h : getById s ty id LATEST_VERSION = none) :
    update s ty id p b now =
      .error ("Entity " ++ createPartitionKey ty id ++ " not found") ∧
    updateStore s ty id p b now = s :=
  ⟨update_not_found s ty id p b now h, updateStore_not_found s ty id p b now h⟩

/-- Witness for C5 at the empty store. -/
theorem claim_C5_witness :
    getById ([] : Store) EntityType.USER "id1" LATEST_VERSION = none ∧
    (update ([] : Store) EntityType.USER "id1" [] true "t0" =
      .error ("Entity " ++ createPartitionKey EntityType.USER "id1" ++ " not found") ∧
     updateStore ([] : Store) EntityType.USER "id1" [] true "t0" = []) :=
  ⟨rfl, claim_C5 [] EntityType.USER "id1" [] true "t0" rfl⟩

/-- C7: after `delete`, `getById` returns absent at every version tag at
which a record previously existed (indeed at every version tag). -/
theorem claim_C7 (s : Store) (ty : EntityType) (id : String) (v : String)
    (e : Entity) (_h : getById s ty id v = some e) :
    getById (deleteStore s ty id) ty id v = none :=
  getById_deleteStore s ty id v

/-- Witness for C7 on a created-then-updated entity, at the archive slot. -/
theorem claim_C7_witness :
    getById exS2 EntityType.USER "id1" "V1" = some exArch1 ∧
    getById (deleteStore exS2 EntityType.USER "id1") EntityType.USER "id1" "V1" = none :=
  ⟨rfl, claim_C7 exS2 EntityType.USER "id1" "V1" exArch1 rfl⟩

/-- C3 counterexample: deleting a (kind, id) with no stored records issues
no deletions and completes without error, returning the store unchanged —
the claim that it raises an error is false on the code, whose
`Promise.all` over the empty list of per-version deletions resolves. -/
theorem claim_C3_counterexample :
    deleteOps ([] : Store) EntityType.USER "id1" = [] ∧
    deleteStore ([] : Store) EntityType.USER "id1" = [] :=
  ⟨rfl, rfl⟩

/-- C3 amended: delete of a (kind, id) under which no record is stored
succeeds silently as a no-op: it enumerates zero versions, issues zero
deletions, and leaves the store unchanged. -/
theorem claim_C3 (s : Store) (ty : EntityType) (id : String)
    (h : getAllVersions s (createPartitionKey ty id) = []) :
    deleteOps s ty id = [] ∧ deleteStore s ty id = s := by
  constructor
  · simp [deleteOps, h]
  · simp [deleteStore, deleteOps, h, applyOps]

/-- Witness for C3 on a store holding an unrelated entity. -/
theorem claim_C3_witness :
    getAllVersions exS1 (createPartitionKey EntityType.USER "other") = [] ∧
    (deleteOps exS1 EntityType.USER "other" = [] ∧
     deleteStore exS1 EntityType.USER "other" = exS1) :=
  ⟨rfl, claim_C3 exS1 EntityType.USER "other" rfl⟩

/-- C6: every successful versioned update issues exactly two writes, the
archive put (to a non-`V0` slot) strictly before the overwrite of the `V0`
slot — the reverse order never occurs. -/
theorem claim_C6 (s : Store) (ty : EntityType) (id : String) (p : AttrMap)
    (now : String) (e : Entity) (ops : List WriteOp)
    (hs : Reachable s)
    (h : update s ty id p true now = .ok (e, ops)) :
    ∃ cur, getById s ty id LATEST_VERSION = some cur ∧
      ops = [.put (createPartitionKey ty id, "V1") (archiveItem cur),
             .put (createPartitionKey ty id, LATEST_VERSION) e] ∧
      ("V1" : String) ≠ LATEST_VERSION := by
  cases hcur : getById s ty id LATEST_VERSION with
  | none =>
    rw [update_not_found s ty id p true now hcur] at h
    cases h
  | some cur =>
    rw [update_found_versioned s ty id p now cur hcur] at h
    have hcv : cur.version = "V0" :=
      current_version_eq s ty id cur (reachable_wf s hs) hcur
    have hnk : getNextVersionKey cur.version = "V1" := by
      rw [hcv]; exact getNextVersionKey_latest
    refine ⟨cur, rfl, ?_, by decide⟩
    injection h with h1
    have he : mergedEntity cur p now = e := congrArg Prod.fst h1
    have hops : [archiveVersionOp (createPartitionKey ty id) cur,
        .put (createPartitionKey ty id, LATEST_VERSION) (mergedEntity cur p now)] =
        ops := congrArg Prod.snd h1
    rw [← hops, archiveVersionOp_eq, hnk, he]

/-- Witness for C6 on the concrete one-entity store. -/
theorem claim_C6_witness :
    Reachable exS1 ∧
    update exS1 EntityType.USER "id1" [("email", "b")] true "t1" =
      .ok (exMerged1,
        [.put (createPartitionKey EntityType.USER "id1", "V1") exArch1,
         .put (createPartitionKey EntityType.USER "id1", LATEST_VERSION) exMerged1]) ∧
    (∃ cur, getById exS1 EntityType.USER "id1" LATEST_VERSION = some cur ∧
      ([WriteOp.put (createPartitionKey EntityType.USER "id1", "V1") exArch1,
        WriteOp.put (createPartitionKey EntityType.USER "id1", LATEST_VERSION) exMerged1] =
        [.put (createPartitionKey EntityType.USER "id1", "V1") (archiveItem cur),
         .put (createPartitionKey EntityType.USER "id1", LATEST_VERSION) exMerged1]) ∧
      ("V1" : String) ≠ LATEST_VERSION) :=
  ⟨Reachable.step_create exInput "t0" Reachable.init, rfl,
    claim_C6 exS1 EntityType.USER "id1" [("email", "b")] "t1" exMerged1
      [.put (createPartitionKey EntityType.USER "id1", "V1") exArch1,
       .put (createPartitionKey EntityType.USER "id1", LATEST_VERSION) exMerged1]
      (Reachable.step_create exInput "t0" Reachable.init) rfl⟩

/-- C2 counterexample: after a versioned update, the archived record is not
the exact pre-update snapshot — its version field is retagged from `V0` to
`V1` — and no stored record equals the exact snapshot. -/
theorem claim_C2_counterexample :
    getById exS1 EntityType.USER "id1" LATEST_VERSION = some exCur1 ∧
    getById exS2 EntityType.USER "id1" "V1" = some { exCur1 with version := "V1" } ∧
    exS2.all (fun kv => kv.2 ≠ exCur1) = true :=
  ⟨rfl, rfl, rfl⟩

/-- C2 amended: after a versioned update on an existing entity, the current
slot holds the prior current record with the payload's fields overlaid,
modification time refreshed and version `V0`, and the archive slot `V1`
holds the pre-update snapshot with only its version field retagged to the
archive slot. -/
theorem claim_C2 (s : Store) (ty : EntityType) (id : String) (p : AttrMap)
    (now : String) (cur : Entity)
    (hs : Reachable s)
    (hcur : getById s ty id LATEST_VERSION = some cur) :
    (∃ ops, update s ty id p true now = .ok (mergedEntity cur p now, ops)) ∧
    getById (updateStore s ty id p true now) ty id LATEST_VERSION =
      some { cur with
        attrs := spread cur.attrs p
        updatedAt := now
        version := LATEST_VERSION } ∧
    getById (updateStore s ty id p true now) ty id "V1" =
      some { cur with version := "V1" } := by
  have hwf := reachable_wf s hs
  exact ⟨⟨_, update_found_versioned s ty id p now cur hcur⟩,
    getById_updateStore_versioned_current s ty id p now cur hcur,
    (archive_after_update s ty id cur p now hwf hcur).1⟩

/-- Witness for C2 on the concrete one-entity store. -/
theorem claim_C2_witness :
    Reachable exS1 ∧
    getById exS1 EntityType.USER "id1" LATEST_VERSION = some exCur1 ∧
    ((∃ ops, update exS1 EntityType.USER "id1" [("email", "b")] true "t1" =
        .ok (mergedEntity exCur1 [("email", "b")] "t1", ops)) ∧
     getById (updateStore exS1 EntityType.USER "id1" [("email", "b")] true "t1")
        EntityType.USER "id1" LATEST_VERSION =
      some { exCur1 with
        attrs := spread exCur1.attrs [("email", "b")]
        updatedAt := "t1"
        version := LATEST_VERSION } ∧
     getById (updateStore exS1 EntityType.USER "id1" [("email", "b")] true "t1")
        EntityType.USER "id1" "V1" =
      some { exCur1 with version := "V1" }) :=
  ⟨Reachable.step_create exInput "t0" Reachable.init, rfl,
    claim_C2 exS1 EntityType.USER "id1" [("email", "b")] "t1" exCur1
      (Reachable.step_create exInput "t0" Reachable.init) rfl⟩

/-- C8 counterexample: two successive in-place updates with the same payload
but later clock readings do not leave the same final `V0` state as one call
— the modification timestamp differs — although, as the claim also states,
neither call creates an archived version. -/
theorem claim_C8_counterexample :
    getById exF1 EntityType.USER "id1" LATEST_VERSION ≠
      getById exF2 EntityType.USER "id1" LATEST_VERSION ∧
    (archivedRecords exF1 EntityType.USER "id1").length = 0 ∧
    (archivedRecords exF2 EntityType.USER "id1").length = 0 :=
  ⟨by decide, rfl, rfl⟩

/-- C8 amended: for an existing entity and a payload with distinct keys,
a second in-place update absorbs the first: updating twice yields exactly
the store produced by one in-place update performed at the second call's
clock reading (so with equal clock readings the states coincide), and each
call issues a single write to the `V0` slot — no archived version. -/
theorem claim_C8 (s : Store) (ty : EntityType) (id : String) (p : AttrMap)
    (n1 n2 : String) (cur : Entity)
    (hnd : (p.map (·.1)).Nodup)
    (hcur : getById s ty id LATEST_VERSION = some cur) :
    updateStore (updateStore s ty id p false n1) ty id p false n2 =
      updateStore s ty id p false n2 ∧
    update s ty id p false n1 =
      .ok (mergedInPlace cur p n1,
        [.put (createPartitionKey ty id, LATEST_VERSION) (mergedInPlace cur p n1)]) ∧
    update (updateStore s ty id p false n1) ty id p false n2 =
      .ok (mergedInPlace (mergedInPlace cur p n1) p n2,
        [.put (createPartitionKey ty id, LATEST_VERSION)
          (mergedInPlace (mergedInPlace cur p n1) p n2)]) := by
  have h1 := getById_updateStore_inplace_current s ty id p n1 cur hcur
  have hm2 : mergedInPlace (mergedInPlace cur p n1) p n2 = mergedInPlace cur p n2 := by
    simp [mergedInPlace, spread_idem cur.attrs p hnd]
  refine ⟨?_, update_found_inplace s ty id p n1 cur hcur,
    update_found_inplace _ ty id p n2 _ h1⟩
  rw [updateStore_found_inplace _ ty id p n2 _ h1, hm2,
    updateStore_found_inplace s ty id p n1 cur hcur,
    updateStore_found_inplace s ty id p n2 cur hcur]
  exact applyOp_put_put s _ _ _

/-- Witness for C8 on the concrete one-entity store. -/
theorem claim_C8_witness :
    ((([("email", "b")] : AttrMap).map (·.1)).Nodup ∧
     getById exS1 EntityType.USER "id1" LATEST_VERSION = some exCur1) ∧
    (updateStore (updateStore exS1 EntityType.USER "id1" [("email", "b")] false "t1")
        EntityType.USER "id1" [("email", "b")] false "t2" =
      updateStore exS1 EntityType.USER "id1" [("email", "b")] false "t2" ∧
     update exS1 EntityType.USER "id1" [("email", "b")] false "t1" =
      .ok (mergedInPlace exCur1 [("email", "b")] "t1",
        [.put (createPartitionKey EntityType.USER "id1", LATEST_VERSION)
          (mergedInPlace exCur1 [("email", "b")] "t1")]) ∧
     update (updateStore exS1 EntityType.USER "id1" [("email", "b")] false "t1")
        EntityType.USER "id1" [("email", "b")] false "t2" =
      .ok (mergedInPlace (mergedInPlace exCur1 [("email", "b")] "t1") [("email", "b")] "t2",
        [.put (createPartitionKey EntityType.USER "id1", LATEST_VERSION)
          (mergedInPlace (mergedInPlace exCur1 [("email", "b")] "t1") [("email", "b")] "t2")])) :=
  ⟨⟨by decide, rfl⟩,
    claim_C8 exS1 EntityType.USER "id1" [("email", "b")] "t1" "t2" exCur1 (by decide) rfl⟩

/-- C9: in every reachable store, every (kind, id) pair under which at least
one record is stored has exactly one record carrying the current-version
tag `V0`; reachability closes the invariant under `create`, `update` (both
flag values) and `delete`. -/
theorem claim_C9 (s : Store) (ty : EntityType) (id : String)
    (hs : Reachable s)
    (h : ∃ kv ∈ s, kv.1.1 = createPartitionKey ty id) :
    (currentRecords s ty id).length = 1 :=
  currentRecords_eq_one s ty id (reachable_wf s hs) h

/-- Witness for C9 on the concrete two-record store. -/
theorem claim_C9_witness :
    Reachable exS2 ∧
    (∃ kv ∈ exS2, kv.1.1 = createPartitionKey EntityType.USER "id1") ∧
    (currentRecords exS2 EntityType.USER "id1").length = 1 :=
  ⟨Reachable.step_update EntityType.USER "id1" [("email", "b")] true "t1"
      (Reachable.step_create exInput "t0" Reachable.init),
   by decide,
   claim_C9 exS2 EntityType.USER "id1"
     (Reachable.step_update EntityType.USER "id1" [("email", "b")] true "t1"
       (Reachable.step_create exInput "t0" Reachable.init))
     (by decide)⟩

/-- C10: in every reachable store the current record carries version `V0`,
so every versioned update computes archive slot `V1`; at most one archived
version per entity exists before the update and exactly one after it, and
that archive holds the most recently superseded state. -/
theorem claim_C10 (s : Store) (ty : EntityType) (id : String) (cur : Entity)
    (p : AttrMap) (now : String)
    (hs : Reachable s)
    (hcur : getById s ty id LATEST_VERSION = some cur) :
    getNextVersionKey cur.version = "V1" ∧
    (archivedRecords s ty id).length ≤ 1 ∧
    (archivedRecords (updateStore s ty id p true now) ty id).length = 1 ∧
    getById (updateStore s ty id p true now) ty id "V1" =
      some { cur with version := "V1" } := by
  obtain ⟨h1, h2, h3, h4⟩ :=
    archive_after_update s ty id cur p now (reachable_wf s hs) hcur
  exact ⟨h4, h2, h3, h1⟩

/-- Witness for C10 on the concrete two-record store. -/
theorem claim_C10_witness :
    Reachable exS2 ∧
    getById exS2 EntityType.USER "id1" LATEST_VERSION = some exMerged1 ∧
    (getNextVersionKey exMerged1.version = "V1" ∧
     (archivedRecords exS2 EntityType.USER "id1").length ≤ 1 ∧
     (archivedRecords (updateStore exS2 EntityType.USER "id1" [("email", "c")] true "t2")
        EntityType.USER "id1").length = 1 ∧
     getById (updateStore exS2 EntityType.USER "id1" [("email", "c")] true "t2")
        EntityType.USER "id1" "V1" = some { exMerged1 with version := "V1" }) :=
  ⟨Reachable.step_update EntityType.USER "id1" [("email", "b")] true "t1"
      (Reachable.step_create exInput "t0" Reachable.init),
   rfl,
   claim_C10 exS2 EntityType.USER "id1" exMerged1 [("email", "c")] "t2"
     (Reachable.step_update EntityType.USER "id1" [("email", "b")] true "t1"
       (Reachable.step_create exInput "t0" Reachable.init))
     rfl⟩

/-- C1 counterexample: two successive versioned updates after creation do
not leave archives `V1` and `V2` with the oldest state at the highest
number; slot `V2` is empty, exactly one archived version exists, and `V1`
holds the most recently superseded state (the first update's record, not
the creation state). -/
theorem claim_C1_counterexample :
    getById exS3 EntityType.USER "id1" "V2" = none ∧
    (archivedRecords exS3 EntityType.USER "id1").length = 1 ∧
    getById exS3 EntityType.USER "id1" "V1" =
      some { id := "id1", entityType := .USER, createdAt := "t0", updatedAt := "t1",
             version := "V1", attrs := [("email", "b")] } :=
  ⟨rfl, rfl, rfl⟩

/-- C1 amended: for every entity created and then subjected to N ≥ 1
successive versioned updates, the store contains exactly one archived
version, at slot `V1` (each archive slot is computed from the current
record, whose version is always `V0`, so the increment always yields `V1`
and overwrites the previous archive), and it holds the most recently
superseded state. -/
theorem claim_C1 (s : Store) (input : EntityInput) (now0 : String)
    (steps : List (AttrMap × String)) (p : AttrMap) (now : String)
    (hs : Reachable s) :
    ∃ c, getById (updateSeq (createStore s input now0) input.entityType input.id steps)
          input.entityType input.id LATEST_VERSION = some c ∧
      getById (updateStore
          (updateSeq (createStore s input now0) input.entityType input.id steps)
          input.entityType input.id p true now) input.entityType input.id "V1" =
        some { c with version := "V1" } ∧
      (archivedRecords (updateStore
          (updateSeq (createStore s input now0) input.entityType input.id steps)
          input.entityType input.id p true now) input.entityType input.id).length = 1 := by
  have hs1 : Reachable (createStore s input now0) := Reachable.step_create input now0 hs
  have hsMid : Reachable (updateSeq (createStore s input now0) input.entityType input.id steps) :=
    updateSeq_reachable steps _ input.entityType input.id hs1
  obtain ⟨c, hc⟩ := updateSeq_current steps (createStore s input now0)
    input.entityType input.id ⟨_, getById_createStore_self s input now0⟩
  obtain ⟨h1, _, h3, _⟩ :=
    archive_after_update _ input.entityType input.id c p now (reachable_wf _ hsMid) hc
  exact ⟨c, hc, h1, h3⟩

/-- Witness for C1: creation followed by two versioned updates. -/
theorem claim_C1_witness :
    Reachable ([] : Store) ∧
    (∃ c, getById (updateSeq (createStore [] exInput "t0") EntityType.USER "id1"
          [([("email", "b")], "t1")]) EntityType.USER "id1" LATEST_VERSION = some c ∧
      getById (updateStore
          (updateSeq (createStore [] exInput "t0") EntityType.USER "id1"
            [([("email", "b")], "t1")])
          EntityType.USER "id1" [("email", "c")] true "t2") EntityType.USER "id1" "V1" =
        some { c with version := "V1" } ∧
      (archivedRecords (updateStore
          (updateSeq (createStore [] exInput "t0") EntityType.USER "id1"
            [([("email", "b")], "t1")])
          EntityType.USER "id1" [("email", "c")] true "t2")
          EntityType.USER "id1").length = 1) :=
  ⟨Reachable.init,
   claim_C1 [] exInput "t0" [([("email", "b")], "t1")] [("email", "c")] "t2" Reachable.init⟩

end VersionedStore
